import Mathlib

/-!
Verification of the FB2 tree-walking translator
(`llm_fb2_translator.py`): a shallow embedding of the XML element
tree, the recursive translation walk `process_element_translations`,
the metadata pass `update_document_metadata`, the provider capability
`translate_text` with its cache and statistics, the serialization
wrapper `write_enhanced_xml`, and the driver `process_fb2_structure`.
Theorems settle the specification's claims about context strings,
structural invariance, slot qualification, failure preservation,
submission order, statistics and caching.
-/

namespace Translator

/-- Characters stripped by Python's `str.strip()` (the ASCII subset;
the repository's guards only ever meet ASCII whitespace around text). -/
def isPySpace (c : Char) : Bool :=
  c = ' ' || c = '\t' || c = '\n' || c = '\x0d' || c = '\x0b' || c = '\x0c'

/-- Python `text.strip()`: remove leading and trailing whitespace. -/
def pyStrip (s : String) : String :=
  String.mk (((s.data.dropWhile isPySpace).reverse.dropWhile isPySpace).reverse)

/-- Python truthiness of an `Optional[str]`: `None` and `""` are falsy. -/
def truthy : Option String → Bool
  | none => false
  | some s => s ≠ ""

/-- An XML element as `xml.etree.ElementTree` presents it: tag,
attribute list (order significant), optional body text (`.text`),
children in order, optional tail text (`.tail`). -/
inductive Elem where
  | mk (tag : String) (attrs : List (String × String)) (text : Option String)
       (children : List Elem) (tail : Option String)
deriving Repr

def Elem.tag : Elem → String
  | .mk t _ _ _ _ => t

def Elem.attrs : Elem → List (String × String)
  | .mk _ a _ _ _ => a

def Elem.text : Elem → Option String
  | .mk _ _ x _ _ => x

def Elem.children : Elem → List Elem
  | .mk _ _ _ cs _ => cs

def Elem.tail : Elem → Option String
  | .mk _ _ _ _ tl => tl

/-- Everything of an element except its text and tail slots. -/
inductive Shape where
  | mk (tag : String) (attrs : List (String × String)) (children : List Shape)
deriving Repr

mutual
/-- Erase the text and tail slots, keeping tag, attributes and child order. -/
def shapeOf : Elem → Shape
  | .mk tag attrs _ cs _ => .mk tag attrs (shapeOfL cs)

def shapeOfL : List Elem → List Shape
  | [] => []
  | c :: cs => shapeOf c :: shapeOfL cs
end

/-- Subtree at a path of child indices (empty path: the element itself). -/
def subAt : Elem → List Nat → Option Elem
  | e, [] => some e
  | e, i :: p =>
    match e.children[i]? with
    | some c => subAt c p
    | none => none

/-- How the walk extends a context for a child: `f"{context}/{child.tag}"
if context else child.tag`. -/
def childCtx (ctx tag : String) : String :=
  if ctx = "" then tag else ctx ++ "/" ++ tag

/-- Subtree at a path together with the context string the walk reaches
it with, when the walk of the root starts with context `ctx`. -/
def locate : Elem → String → List Nat → Option (Elem × String)
  | e, ctx, [] => some (e, ctx)
  | e, ctx, i :: p =>
    match e.children[i]? with
    | some c => locate c (childCtx ctx c.tag) p
    | none => none

/-- Rewrite position `i` of a list with `g` (identity when out of range). -/
def modifyChild : List Elem → Nat → (Elem → Elem) → List Elem
  | [], _, _ => []
  | c :: cs, 0, g => g c :: cs
  | c :: cs, i + 1, g => c :: modifyChild cs i g

/-- Rewrite the subtree at a path with `f` (identity when the path is absent). -/
def modifyAt : Elem → List Nat → (Elem → Elem) → Elem
  | e, [], f => f e
  | .mk tag attrs txt cs tl, i :: p, f =>
    .mk tag attrs txt (modifyChild cs i (fun c => modifyAt c p f)) tl

/-- Tag names along a path, the root's own tag excluded: the walk starts
each run with the empty context, so contexts begin at the root's children. -/
def tagsBelow : Elem → List Nat → List String
  | _, [] => []
  | e, i :: p =>
    match e.children[i]? with
    | some c => c.tag :: tagsBelow c p
    | none => []

/-- The capability the walker sees: `bumpTotal` models the walker's own
`translation_stats['total'] += 1`, `translate` models
`translator.translate_text(text, context)` (`none` = Python `None`). -/
structure Cap (σ : Type) where
  bumpTotal : σ → σ
  translate : σ → String → String → Option String × σ

/-- One slot of `process_element_translations` (body or tail):
`if slot and slot.strip(): text = slot.strip(); if len(text) > 2:
stats['total'] += 1; translation = translate_text(text, ctx);
if translation: slot = translation`.  Returns the new slot value, the
submitted `(text, context)` pairs (at most one) and the new state. -/
def stepSlot {σ : Type} (cap : Cap σ) (slot : Option String) (ctx : String) (s : σ) :
    Option String × List (String × String) × σ :=
  match slot with
  | none => (none, [], s)
  | some t =>
    if pyStrip t = "" then (some t, [], s)
    else if (pyStrip t).length > 2 then
      let r := cap.translate (cap.bumpTotal s) (pyStrip t) ctx
      (match r.1 with
       | some tr => if tr = "" then some t else some tr
       | none => some t,
       [(pyStrip t, ctx)], r.2)
    else (some t, [], s)

mutual
/-- `AdvancedLLMFB2Translator.process_element_translations`: body text
first, then the children each with context `f"{context}/{child.tag}"
if context else child.tag`, then tail text with context
`f"{context}/tail"`.  Also returns the submitted `(text, context)`
pairs in submission order. -/
def process_element_translations {σ : Type} (cap : Cap σ) :
    Elem → String → σ → Elem × List (String × String) × σ
  | .mk tag attrs txt cs tl, ctx, s =>
    let b := stepSlot cap txt ctx s
    let m := processChildren cap cs ctx b.2.2
    let t := stepSlot cap tl (ctx ++ "/tail") m.2.2
    (.mk tag attrs b.1 m.1 t.1, b.2.1 ++ m.2.1 ++ t.2.1, t.2.2)

/-- The `for child in element:` loop of `process_element_translations`. -/
def processChildren {σ : Type} (cap : Cap σ) :
    List Elem → String → σ → List Elem × List (String × String) × σ
  | [], _, s => ([], [], s)
  | c :: cs, ctx, s =>
    let r := process_element_translations cap c (childCtx ctx c.tag) s
    let rs := processChildren cap cs ctx r.2.2
    (r.1 :: rs.1, r.2.1 ++ rs.2.1, rs.2.2)
end

/-- The unit a slot contributes: one `(stripped text, context)` pair when
the stripped text has length > 2, nothing otherwise. -/
def slotUnits (slot : Option String) (ctx : String) : List (String × String) :=
  match slot with
  | none => []
  | some t =>
    if pyStrip t = "" then []
    else if (pyStrip t).length > 2 then [(pyStrip t, ctx)]
    else []

mutual
/-- Pre-order enumeration of the walk's translation units, each tagged
with the path of its node and whether it is a tail unit: body unit,
then the children's units in order, then the tail unit. -/
def unitsE : Elem → String → List (List Nat × Bool × String × String)
  | .mk _ _ txt cs tl, ctx =>
    (slotUnits txt ctx).map (fun u => ([], false, u.1, u.2))
      ++ unitsL cs ctx 0
      ++ (slotUnits tl (ctx ++ "/tail")).map (fun u => ([], true, u.1, u.2))

/-- Units of a child list, paths extended with each child's index. -/
def unitsL : List Elem → String → Nat → List (List Nat × Bool × String × String)
  | [], _, _ => []
  | c :: cs, ctx, i =>
    (unitsE c (childCtx ctx c.tag)).map (fun q => (i :: q.1, q.2))
      ++ unitsL cs ctx (i + 1)
end

/-- The `(text, context)` pairs of the pre-order enumeration. -/
def submittedUnits (e : Elem) (ctx : String) : List (String × String) :=
  (unitsE e ctx).map (fun q => q.2.2)

theorem stepSlot_trace {σ : Type} (cap : Cap σ) (slot : Option String) (ctx : String) (s : σ) :
    (stepSlot cap slot ctx s).2.1 = slotUnits slot ctx := by
  cases slot with
  | none => rfl
  | some t =>
    simp only [stepSlot, slotUnits]
    split_ifs <;> rfl

mutual
theorem trace_eq {σ : Type} (cap : Cap σ) (e : Elem) (ctx : String) (s : σ) :
    (process_element_translations cap e ctx s).2.1 = submittedUnits e ctx := by
  cases e with
  | mk tag attrs txt cs tl =>
    simp only [process_element_translations, submittedUnits, unitsE, List.map_append,
      List.map_map]
    rw [stepSlot_trace, stepSlot_trace, traceL_eq cap cs ctx 0]
    simp [Function.comp_def]

theorem traceL_eq {σ : Type} (cap : Cap σ) (cs : List Elem) (ctx : String) (i : Nat) (s : σ) :
    (processChildren cap cs ctx s).2.1 = (unitsL cs ctx i).map (fun q => q.2.2) := by
  cases cs with
  | nil => rfl
  | cons c cs =>
    simp only [processChildren, unitsL, List.map_append, List.map_map]
    rw [trace_eq cap c, traceL_eq cap cs ctx (i + 1)]
    simp [Function.comp_def, submittedUnits]
end

mutual
theorem shape_walk {σ : Type} (cap : Cap σ) (e : Elem) (ctx : String) (s : σ) :
    shapeOf (process_element_translations cap e ctx s).1 = shapeOf e := by
  cases e with
  | mk tag attrs txt cs tl =>
    simp only [process_element_translations, shapeOf]
    rw [shape_walkL cap cs ctx]

theorem shape_walkL {σ : Type} (cap : Cap σ) (cs : List Elem) (ctx : String) (s : σ) :
    shapeOfL (processChildren cap cs ctx s).1 = shapeOfL cs := by
  cases cs with
  | nil => rfl
  | cons c cs =>
    simp only [processChildren, shapeOfL]
    rw [shape_walk cap c, shape_walkL cap cs ctx]
end

theorem shapeOfL_modifyChild (cs : List Elem) (i : Nat) (g : Elem → Elem)
    (hg : ∀ x, shapeOf (g x) = shapeOf x) :
    shapeOfL (modifyChild cs i g) = shapeOfL cs := by
  induction cs generalizing i with
  | nil => rfl
  | cons c cs ih =>
    cases i with
    | zero => simp only [modifyChild, shapeOfL, hg c]
    | succ i => simp only [modifyChild, shapeOfL, ih i]

theorem shape_modifyAt (e : Elem) (p : List Nat) (f : Elem → Elem)
    (hf : ∀ x, shapeOf (f x) = shapeOf x) :
    shapeOf (modifyAt e p f) = shapeOf e := by
  induction p generalizing e with
  | nil => simpa only [modifyAt] using hf e
  | cons i p ih =>
    cases e with
    | mk tag attrs txt cs tl =>
      simp only [modifyAt, shapeOf]
      rw [shapeOfL_modifyChild cs i _ (fun x => ih x)]

/-- The `i`-th child of a walked child list is the walk of the `i`-th
input child, from some intermediate state, with the child's context. -/
theorem processChildren_get {σ : Type} (cap : Cap σ) (cs : List Elem) (ctx : String)
    (s : σ) (i : Nat) (ch : Elem) (h : cs[i]? = some ch) :
    ∃ s0, (processChildren cap cs ctx s).1[i]? =
      some (process_element_translations cap ch (childCtx ctx ch.tag) s0).1 := by
  induction cs generalizing i s with
  | nil => simp at h
  | cons c cs ih =>
    cases i with
    | zero =>
      simp only [List.getElem?_cons_zero, Option.some.injEq] at h
      subst h
      exact ⟨s, by simp only [processChildren, List.getElem?_cons_zero]⟩
    | succ i =>
      simp only [List.getElem?_cons_succ] at h
      simpa only [processChildren, List.getElem?_cons_succ] using
        ih ((process_element_translations cap c (childCtx ctx c.tag) s).2.2) i h

/-- The subtree of the walk result at a located path is the walk of the
input subtree there, with the located context, from some state. -/
theorem walk_subAt {σ : Type} (cap : Cap σ) (e : Elem) (ctx : String) (s : σ)
    (p : List Nat) (n : Elem) (c : String) (h : locate e ctx p = some (n, c)) :
    ∃ s0, subAt (process_element_translations cap e ctx s).1 p =
      some (process_element_translations cap n c s0).1 := by
  induction p generalizing e ctx s with
  | nil =>
    simp only [locate, Option.some.injEq, Prod.mk.injEq] at h
    exact ⟨s, by simp [subAt, h.1, h.2]⟩
  | cons i p ih =>
    cases e with
    | mk tag attrs txt cs tl =>
      simp only [locate, Elem.children] at h
      cases hch : cs[i]? with
      | none => rw [hch] at h; exact absurd h (by simp)
      | some ch =>
        rw [hch] at h
        obtain ⟨s0, hs0⟩ := processChildren_get cap cs ctx
          ((stepSlot cap txt ctx s).2.2) i ch hch
        obtain ⟨s1, hs1⟩ := ih ch (childCtx ctx ch.tag) s0 h
        refine ⟨s1, ?_⟩
        simp only [process_element_translations, subAt, Elem.children]
        rw [hs0]
        exact hs1

/-- A slot qualifies for submission: non-null and stripped length
strictly greater than 2 (`if element.text and element.text.strip():`
followed by `if len(text) > 2:`; the truthiness guards are implied by
the length bound). -/
def qualifies (slot : Option String) : Prop :=
  ∃ t, slot = some t ∧ (pyStrip t).length > 2

instance qualifiesDecidable : DecidablePred qualifies := fun slot =>
  match slot with
  | none => isFalse (by rintro ⟨t, h, _⟩; exact Option.noConfusion h)
  | some t =>
    if h : (pyStrip t).length > 2 then isTrue ⟨t, rfl, h⟩
    else isFalse (by
      rintro ⟨u, hu, hl⟩
      cases Option.some.inj hu
      exact h hl)

/-- Select a node's body (`false`) or tail (`true`) slot. -/
def slotOf (n : Elem) (k : Bool) : Option String :=
  if k then n.tail else n.text

/-- The context a slot is submitted with: the node's context, with
`"/tail"` appended for the tail slot. -/
def slotCtx (c : String) (k : Bool) : String :=
  if k then c ++ "/tail" else c

/-- A failed translation attempt as the walker sees it: `None`
(provider exception) or an empty string (falsy in `if translation:`). -/
def failedResult (r : Option String) : Prop :=
  r = none ∨ r = some ""

theorem stepSlot_not_qual {σ : Type} (cap : Cap σ) (slot : Option String) (ctx : String)
    (s : σ) (h : ¬ qualifies slot) : (stepSlot cap slot ctx s).1 = slot := by
  cases slot with
  | none => rfl
  | some t =>
    simp only [stepSlot]
    split_ifs with h1 h2
    · rfl
    · exact absurd ⟨t, rfl, h2⟩ h
    · rfl

theorem stepSlot_qual {σ : Type} (cap : Cap σ) (t : String) (ctx : String) (s : σ)
    (hl : (pyStrip t).length > 2) :
    (stepSlot cap (some t) ctx s).1 =
      match (cap.translate (cap.bumpTotal s) (pyStrip t) ctx).1 with
      | some tr => if tr = "" then some t else some tr
      | none => some t := by
  have hne : ¬ pyStrip t = "" := by
    intro h
    rw [h] at hl
    simp at hl
  simp only [stepSlot, if_neg hne, if_pos hl]

theorem slotUnits_length (slot : Option String) (ctx : String) :
    (slotUnits slot ctx).length = if qualifies slot then 1 else 0 := by
  cases slot with
  | none =>
    simp only [slotUnits, List.length_nil]
    rw [if_neg]
    rintro ⟨t, h, _⟩
    exact Option.noConfusion h
  | some t =>
    simp only [slotUnits]
    by_cases hl : (pyStrip t).length > 2
    · have hne : ¬ pyStrip t = "" := by
        intro h
        rw [h] at hl
        simp at hl
      rw [if_neg hne, if_pos hl, if_pos ⟨t, rfl, hl⟩]
      rfl
    · have hq : ¬ qualifies (some t) := by
        rintro ⟨u, hu, hul⟩
        cases Option.some.inj hu
        exact hl hul
      rw [if_neg hq]
      split_ifs <;> rfl

theorem slotUnits_mem {slot : Option String} {ctx : String} {u : String × String}
    (hu : u ∈ slotUnits slot ctx) : slotUnits slot ctx = [u] := by
  cases slot with
  | none => simp [slotUnits] at hu
  | some t =>
    simp only [slotUnits] at hu ⊢
    split_ifs at hu ⊢ <;> simp_all

/-- Per-slot view of the walk: each slot of the node at a located path
comes out of `stepSlot` run at that node's context, from some state. -/
theorem walk_slot_at {σ : Type} (cap : Cap σ) (e : Elem) (ctx0 : String) (s : σ)
    (p : List Nat) (n : Elem) (c : String) (k : Bool)
    (h : locate e ctx0 p = some (n, c)) :
    ∃ n' s', subAt (process_element_translations cap e ctx0 s).1 p = some n' ∧
      slotOf n' k = (stepSlot cap (slotOf n k) (slotCtx c k) s').1 := by
  obtain ⟨s0, hs0⟩ := walk_subAt cap e ctx0 s p n c h
  cases n with
  | mk tag attrs txt cs tl =>
    cases k with
    | false => exact ⟨_, s0, hs0, rfl⟩
    | true =>
      exact ⟨_, (processChildren cap cs c (stepSlot cap txt c s0).2.2).2.2, hs0, rfl⟩

theorem unitsL_mem {cs : List Elem} {ctx : String} {i : Nat}
    {q : List Nat × Bool × String × String} (hq : q ∈ unitsL cs ctx i) :
    ∃ j ch q2, q = ((i + j) :: q2.1, q2.2) ∧ cs[j]? = some ch ∧
      q2 ∈ unitsE ch (childCtx ctx ch.tag) := by
  induction cs generalizing i with
  | nil => simp [unitsL] at hq
  | cons c cs ih =>
    simp only [unitsL, List.mem_append, List.mem_map] at hq
    rcases hq with ⟨q2, hq2, rfl⟩ | hq
    · exact ⟨0, c, q2, by simp, by simp, hq2⟩
    · obtain ⟨j, ch, q2, hqe, hch, hmem⟩ := ih hq
      refine ⟨j + 1, ch, q2, ?_, by simpa using hch, hmem⟩
      rw [hqe]
      have : i + 1 + j = i + (j + 1) := by omega
      rw [this]

theorem unitsL_head_ge {cs : List Elem} {ctx : String} {m : Nat}
    {q : List Nat × Bool × String × String} (hq : q ∈ unitsL cs ctx m) :
    ∃ h rest, q.1 = h :: rest ∧ m ≤ h := by
  obtain ⟨j, ch, q2, hqe, _, _⟩ := unitsL_mem hq
  exact ⟨m + j, q2.1, by rw [hqe], Nat.le_add_right m j⟩

mutual
/-- Every enumerated unit belongs to a located slot: its context is the
node's located context (with `"/tail"` for tail units) and its text is
the slot's stripped text. -/
theorem unitsE_mem (e : Elem) (ctx0 : String) (q : List Nat × Bool × String × String)
    (hq : q ∈ unitsE e ctx0) :
    ∃ n c, locate e ctx0 q.1 = some (n, c) ∧
      slotUnits (slotOf n q.2.1) (slotCtx c q.2.1) = [(q.2.2.1, q.2.2.2)] := by
  cases e with
  | mk tag attrs txt cs tl =>
    simp only [unitsE, List.mem_append, List.mem_map] at hq
    rcases hq with (⟨u, hu, rfl⟩ | hq) | ⟨u, hu, rfl⟩
    · refine ⟨.mk tag attrs txt cs tl, ctx0, by simp [locate], ?_⟩
      simpa [slotOf, slotCtx, Elem.text] using slotUnits_mem hu
    · obtain ⟨j, ch, q2, hqe, hch, n, c, hloc, hslot⟩ := unitsL_mem2 cs ctx0 0 q hq
      refine ⟨n, c, ?_, ?_⟩
      · rw [hqe]
        simp only [locate, Elem.children, Nat.zero_add]
        rw [hch]
        exact hloc
      · rw [hqe]
        exact hslot
    · refine ⟨.mk tag attrs txt cs tl, ctx0, by simp [locate], ?_⟩
      simpa [slotOf, slotCtx, Elem.tail] using slotUnits_mem hu

theorem unitsL_mem2 (cs : List Elem) (ctx : String) (i : Nat)
    (q : List Nat × Bool × String × String) (hq : q ∈ unitsL cs ctx i) :
    ∃ j, ∃ ch : Elem, ∃ q2 : List Nat × Bool × String × String,
      q = ((i + j) :: q2.1, q2.2) ∧ cs[j]? = some ch ∧
      ∃ n c, locate ch (childCtx ctx ch.tag) q2.1 = some (n, c) ∧
        slotUnits (slotOf n q2.2.1) (slotCtx c q2.2.1) = [(q2.2.2.1, q2.2.2.2)] := by
  cases cs with
  | nil => simp [unitsL] at hq
  | cons c cs =>
    simp only [unitsL, List.mem_append, List.mem_map] at hq
    rcases hq with ⟨q2, hq2, rfl⟩ | hq
    · obtain ⟨n, c', hloc, hslot⟩ := unitsE_mem c (childCtx ctx c.tag) q2 hq2
      exact ⟨0, c, q2, by simp, by simp, n, c', hloc, hslot⟩
    · obtain ⟨j, ch, q2, hqe, hch, hrest⟩ := unitsL_mem2 cs ctx (i + 1) q hq
      refine ⟨j + 1, ch, q2, ?_, by simpa using hch, hrest⟩
      rw [hqe]
      have : i + 1 + j = i + (j + 1) := by omega
      rw [this]
end

/-- How many enumerated units target the slot `(path, kind)`. -/
def countSlot (l : List (List Nat × Bool × String × String)) (p : List Nat)
    (k : Bool) : Nat :=
  l.countP (fun q => decide (q.1 = p ∧ q.2.1 = k))

theorem countP_all_true {α : Type} (l : List α) (p : α → Bool) (h : ∀ a, p a = true) :
    l.countP p = l.length :=
  List.countP_eq_length.mpr (fun a _ => h a)

theorem countP_all_false {α : Type} (l : List α) (p : α → Bool)
    (h : ∀ a ∈ l, ¬ p a = true) : l.countP p = 0 :=
  List.countP_eq_zero.mpr h

theorem countSlot_unitsL_below {cs : List Elem} {ctx : String} {m : Nat}
    {hd : Nat} {p' : List Nat} {k : Bool} (hhd : hd < m) :
    countSlot (unitsL cs ctx m) (hd :: p') k = 0 := by
  apply countP_all_false
  intro q hq
  obtain ⟨h, rest, hq1, hm⟩ := unitsL_head_ge hq
  simp only [decide_eq_true_eq, not_and]
  intro hcontra
  rw [hq1] at hcontra
  have : h = hd := (List.cons.injEq _ _ _ _ ▸ hcontra).1
  omega

mutual
/-- Each located slot is targeted by exactly as many enumerated units
as `slotUnits` yields for it: one when it qualifies, zero otherwise. -/
theorem countSlot_unitsE (e : Elem) (ctx0 : String) (p : List Nat) (k : Bool)
    (n : Elem) (c : String) (h : locate e ctx0 p = some (n, c)) :
    countSlot (unitsE e ctx0) p k = (slotUnits (slotOf n k) (slotCtx c k)).length := by
  cases e with
  | mk tag attrs txt cs tl =>
    cases p with
    | nil =>
      simp only [locate, Option.some.injEq, Prod.mk.injEq] at h
      obtain ⟨rfl, rfl⟩ := h
      simp only [countSlot, unitsE, List.countP_append, List.countP_map]
      have hmid : List.countP (fun q => decide (q.1 = ([] : List Nat) ∧ q.2.1 = k))
          (unitsL cs ctx0 0) = 0 := by
        apply countP_all_false
        intro q hq
        obtain ⟨hh, rest, hq1, _⟩ := unitsL_head_ge hq
        simp only [decide_eq_true_eq, not_and]
        intro hcontra
        rw [hq1] at hcontra
        exact List.noConfusion hcontra
      cases k with
      | false =>
        rw [hmid]
        have h1 : List.countP ((fun q : List Nat × Bool × String × String =>
            decide (q.1 = ([] : List Nat) ∧ q.2.1 = false)) ∘
            (fun u : String × String => (([] : List Nat), false, u.1, u.2)))
            (slotUnits txt ctx0) = (slotUnits txt ctx0).length :=
          countP_all_true _ _ (fun a => by simp)
        have h2 : List.countP ((fun q : List Nat × Bool × String × String =>
            decide (q.1 = ([] : List Nat) ∧ q.2.1 = false)) ∘
            (fun u : String × String => (([] : List Nat), true, u.1, u.2)))
            (slotUnits tl (ctx0 ++ "/tail")) = 0 :=
          countP_all_false _ _ (fun a _ => by simp)
        rw [h1, h2]
        simp [slotOf, slotCtx, Elem.text]
      | true =>
        rw [hmid]
        have h1 : List.countP ((fun q : List Nat × Bool × String × String =>
            decide (q.1 = ([] : List Nat) ∧ q.2.1 = true)) ∘
            (fun u : String × String => (([] : List Nat), false, u.1, u.2)))
            (slotUnits txt ctx0) = 0 :=
          countP_all_false _ _ (fun a _ => by simp)
        have h2 : List.countP ((fun q : List Nat × Bool × String × String =>
            decide (q.1 = ([] : List Nat) ∧ q.2.1 = true)) ∘
            (fun u : String × String => (([] : List Nat), true, u.1, u.2)))
            (slotUnits tl (ctx0 ++ "/tail")) = (slotUnits tl (ctx0 ++ "/tail")).length :=
          countP_all_true _ _ (fun a => by simp)
        rw [h1, h2]
        simp [slotOf, slotCtx, Elem.tail]
    | cons i p' =>
      simp only [locate, Elem.children] at h
      cases hch : cs[i]? with
      | none =>
        rw [hch] at h
        exact absurd h (by simp)
      | some ch =>
        rw [hch] at h
        have hmain := countSlot_unitsL cs ctx0 0 i p' k n c ch hch h
        simp only [Nat.zero_add] at hmain
        simp only [countSlot, unitsE, List.countP_append, List.countP_map]
        have h1 : List.countP ((fun q : List Nat × Bool × String × String =>
            decide (q.1 = i :: p' ∧ q.2.1 = k)) ∘
            (fun u : String × String => (([] : List Nat), false, u.1, u.2)))
            (slotUnits txt ctx0) = 0 :=
          countP_all_false _ _ (fun a _ => by simp)
        have h2 : List.countP ((fun q : List Nat × Bool × String × String =>
            decide (q.1 = i :: p' ∧ q.2.1 = k)) ∘
            (fun u : String × String => (([] : List Nat), true, u.1, u.2)))
            (slotUnits tl (ctx0 ++ "/tail")) = 0 :=
          countP_all_false _ _ (fun a _ => by simp)
        rw [h1, h2]
        simpa [countSlot] using hmain

theorem countSlot_unitsL (cs : List Elem) (ctx : String) (j i : Nat) (p' : List Nat)
    (k : Bool) (n : Elem) (c : String) (ch : Elem) (hch : cs[i]? = some ch)
    (h : locate ch (childCtx ctx ch.tag) p' = some (n, c)) :
    countSlot (unitsL cs ctx j) ((j + i) :: p') k
      = (slotUnits (slotOf n k) (slotCtx c k)).length := by
  cases cs with
  | nil => simp at hch
  | cons c0 cs =>
    cases i with
    | zero =>
      simp only [List.getElem?_cons_zero, Option.some.injEq] at hch
      subst hch
      simp only [unitsL, countSlot, List.countP_append, List.countP_map]
      have h1 : List.countP ((fun q : List Nat × Bool × String × String =>
          decide (q.1 = (j + 0) :: p' ∧ q.2.1 = k)) ∘
          (fun q : List Nat × Bool × String × String => (j :: q.1, q.2)))
          (unitsE c0 (childCtx ctx c0.tag))
          = countSlot (unitsE c0 (childCtx ctx c0.tag)) p' k := by
        apply List.countP_congr
        intro q _
        simp [Nat.add_zero]
      have h2 : List.countP (fun q : List Nat × Bool × String × String =>
          decide (q.1 = (j + 0) :: p' ∧ q.2.1 = k)) (unitsL cs ctx (j + 1)) = 0 := by
        have := @countSlot_unitsL_below cs ctx (j + 1) (j + 0) p' k (by omega)
        simpa [countSlot] using this
      rw [h1, h2, countSlot_unitsE c0 (childCtx ctx c0.tag) p' k n c h]
      omega
    | succ i' =>
      simp only [List.getElem?_cons_succ] at hch
      simp only [unitsL, countSlot, List.countP_append, List.countP_map]
      have h1 : List.countP ((fun q : List Nat × Bool × String × String =>
          decide (q.1 = (j + (i' + 1)) :: p' ∧ q.2.1 = k)) ∘
          (fun q : List Nat × Bool × String × String => (j :: q.1, q.2)))
          (unitsE c0 (childCtx ctx c0.tag)) = 0 := by
        apply countP_all_false
        intro q _
        simp only [Function.comp_apply, decide_eq_true_eq, not_and]
        intro hcontra
        have : j = j + (i' + 1) := (List.cons.injEq _ _ _ _ ▸ hcontra).1
        omega
      have h2 := countSlot_unitsL cs ctx (j + 1) i' p' k n c ch hch h
      have hidx : j + 1 + i' = j + (i' + 1) := by omega
      rw [hidx] at h2
      rw [h1]
      simpa [countSlot] using h2
end

/-! ### The concrete translation capability (`LLMTranslator` and its
provider subclasses; they all share the structure of
`OpenAITranslator.translate_text`). -/

/-- `translation_stats`: the four counters of `LLMTranslator.__init__`. -/
structure Stats where
  total : Nat
  translated : Nat
  errors : Nat
  cached : Nat
deriving Repr, DecidableEq

/-- The remote model behind a provider: given its own state and the
request, it either answers with the raw response content (`some`) or
raises an exception (`none`, covering every failure path of the
`try` block including a null content). -/
structure Provider (π : Type) where
  call : π → String → String → Option String × π

/-- The mutable state of one translator object: `translation_cache`
(an insertion-ordered map, newest first), `translation_stats`, and the
provider's own state. -/
structure TState (π : Type) where
  cache : List ((String × String) × String)
  stats : Stats
  prov : π

/-- Python dict lookup on the cache association list. -/
def lookupCache (cache : List ((String × String) × String)) (key : String × String) :
    Option String :=
  (cache.find? (fun kv => decide (kv.1 = key))).map (fun kv => kv.2)

/-- Single-character `str.replace` (the source only replaces single
characters with single characters). -/
def pyReplaceChar (s : String) (a b : Char) : String :=
  String.mk (s.data.map (fun c => if c = a then b else c))

def endsWithNewline (s : String) : Bool :=
  s.data.getLast? = some '\n'

/-- Python `str.islower` on the first character, restricted to the
ASCII and Cyrillic letters this translator meets. -/
def pyIsLower (c : Char) : Bool :=
  ('a' ≤ c && c ≤ 'z') || ('а' ≤ c && c ≤ 'я') || ('ѐ' ≤ c && c ≤ 'џ')

/-- Python `str.isupper` for ASCII and Cyrillic letters. -/
def pyIsUpper (c : Char) : Bool :=
  ('A' ≤ c && c ≤ 'Z') || ('А' ≤ c && c ≤ 'Я') || ('Ѐ' ≤ c && c ≤ 'Џ')

/-- Python `str.upper` on one ASCII or Cyrillic letter. -/
def pyToUpper (c : Char) : Char :=
  if 'a' ≤ c && c ≤ 'z' then Char.ofNat (c.toNat - 32)
  else if 'а' ≤ c && c ≤ 'я' then Char.ofNat (c.toNat - 32)
  else if 'ѐ' ≤ c && c ≤ 'џ' then Char.ofNat (c.toNat - 80)
  else c

/-- `enhanced[0].upper() + enhanced[1:]`. -/
def upperFirst (s : String) : String :=
  match s.data with
  | [] => s
  | c :: rest => String.mk (pyToUpper c :: rest)

/-- `LLMTranslator.enhance_translation`.  The two quotation-mark
replaces and the apostrophe replace in the source substitute a plain
ASCII quote for itself, so they are written here exactly as such. -/
def enhance_translation (original translated : String) : String :=
  let e1 := pyReplaceChar (pyReplaceChar translated '"' '"') '"' '"'
  let e2 := pyReplaceChar e1 (Char.ofNat 39) (Char.ofNat 39)
  let e3 :=
    if endsWithNewline original && !endsWithNewline e2 then e2 ++ "\n" else e2
  if e3 ≠ "" ∧ (∃ c, e3.data.head? = some c ∧ pyIsLower c)
      ∧ original ≠ "" ∧ (∃ c, original.data.head? = some c ∧ pyIsUpper c)
  then upperFirst e3 else e3

instance (p : String) (c : Char → Bool) :
    Decidable (∃ x, p.data.head? = some x ∧ c x) := by
  cases h : p.data.head? with
  | none => exact isFalse (by rintro ⟨x, hx, _⟩; exact Option.noConfusion hx)
  | some x =>
    cases hc : c x with
    | false => exact isFalse (by
        rintro ⟨y, hy, hcy⟩
        cases Option.some.inj hy
        rw [hc] at hcy
        exact Bool.noConfusion hcy)
    | true => exact isTrue ⟨x, rfl, hc⟩

/-- `OpenAITranslator.translate_text` (all provider classes share this
body): blank text is returned as is; a cache hit bumps `cached`; a
provider exception bumps `errors` and yields `None`; a response is
stripped, enhanced, cached, bumps `translated` and is returned. -/
def translate_text {π : Type} (P : Provider π) (st : TState π) (text context : String) :
    Option String × TState π :=
  if pyStrip text = "" then (some text, st)
  else
    match lookupCache st.cache (text, context) with
    | some v =>
      (some v, { st with stats := { st.stats with cached := st.stats.cached + 1 } })
    | none =>
      match P.call st.prov text context with
      | (none, p') =>
        (none, { st with stats := { st.stats with errors := st.stats.errors + 1 },
                         prov := p' })
      | (some resp, p') =>
        let enhanced := enhance_translation text (pyStrip resp)
        (some enhanced,
         { st with cache := ((text, context), enhanced) :: st.cache,
                   stats := { st.stats with translated := st.stats.translated + 1 },
                   prov := p' })

/-- The same capability with the cache removed (the spec's
"cache absent" reference behaviour). -/
def translate_text_nocache {π : Type} (P : Provider π) (st : TState π)
    (text context : String) : Option String × TState π :=
  if pyStrip text = "" then (some text, st)
  else
    match P.call st.prov text context with
    | (none, p') =>
      (none, { st with stats := { st.stats with errors := st.stats.errors + 1 },
                       prov := p' })
    | (some resp, p') =>
      let enhanced := enhance_translation text (pyStrip resp)
      (some enhanced,
       { st with stats := { st.stats with translated := st.stats.translated + 1 },
                 prov := p' })

/-- The walker's capability view of a concrete translator object. -/
def llmCap {π : Type} (P : Provider π) : Cap (TState π) :=
  { bumpTotal := fun st =>
      { st with stats := { st.stats with total := st.stats.total + 1 } },
    translate := fun st t c => translate_text P st t c }

def llmCapNoCache {π : Type} (P : Provider π) : Cap (TState π) :=
  { bumpTotal := fun st =>
      { st with stats := { st.stats with total := st.stats.total + 1 } },
    translate := fun st t c => translate_text_nocache P st t c }

/-! ### Metadata pass, Latin conversion, serialization and driver. -/

/-- FB2 namespace wrapper as `ElementTree` renders fully-qualified tags. -/
def fb2ns : String := "\x7bhttp://www.gribuser.ru/xml/fictionbook/2.0\x7d"

def descriptionTag : String := fb2ns ++ "description"
def titleInfoTag : String := fb2ns ++ "title-info"
def langTag : String := fb2ns ++ "lang"
def bookTitleTag : String := fb2ns ++ "book-title"

mutual
/-- Search one element's descendants for the tag. -/
def findDescendantE : Elem → String → Option (List Nat)
  | .mk _ _ _ ccs _, tag => findDescendant ccs tag 0

/-- `root.find('.//{ns}tag')`: path of the first descendant with the
tag, in document order (an element before its own descendants, and a
whole subtree before the next sibling). -/
def findDescendant : List Elem → String → Nat → Option (List Nat)
  | [], _, _ => none
  | c :: cs, tag, i =>
    if c.tag = tag then some [i]
    else
      match findDescendantE c tag with
      | some p => some (i :: p)
      | none => findDescendant cs tag (i + 1)
end

/-- `parent.find('{ns}tag')`: index of the first direct child with the tag. -/
def findChildIdx : List Elem → String → Nat → Option Nat
  | [], _, _ => none
  | c :: cs, tag, i => if c.tag = tag then some i else findChildIdx cs tag (i + 1)

/-- Overwrite a node's body text (`elem.text = v`). -/
def setText (v : String) (e : Elem) : Elem :=
  .mk e.tag e.attrs (some v) e.children e.tail

/-- Locate `description` (first descendant, document order) and inside
it the first `title-info` child: the path of `title-info` and the node
itself. -/
def metadata_paths (root : Elem) : Option (List Nat × Elem) :=
  match findDescendant root.children descriptionTag 0 with
  | none => none
  | some pd =>
    match subAt root pd with
    | none => none
    | some desc =>
      match findChildIdx desc.children titleInfoTag 0 with
      | none => none
      | some it =>
        match subAt root (pd ++ [it]) with
        | none => none
        | some ti => some (pd ++ [it], ti)

/-- The tree after the `lang` step of `update_document_metadata`:
`if lang is not None: lang.text = 'sr'`. -/
def metadata_root1 (root : Elem) : Elem :=
  match metadata_paths root with
  | none => root
  | some pt =>
    match findChildIdx pt.2.children langTag 0 with
    | some il => modifyAt root (pt.1 ++ [il]) (setText "sr")
    | none => root

/-- The book-title translation to attempt, when `book-title` exists and
has truthy text: its path and its raw text. -/
def metadata_task (root : Elem) : Option (List Nat × String) :=
  match metadata_paths root with
  | none => none
  | some pt =>
    match findChildIdx pt.2.children bookTitleTag 0 with
    | none => none
    | some ib =>
      match subAt (metadata_root1 root) (pt.1 ++ [ib]) with
      | none => none
      | some bt =>
        match bt.text with
        | none => none
        | some btText => if btText = "" then none else some (pt.1 ++ [ib], btText)

/-- The book-title step of `update_document_metadata`:
`translated_title = translate_text(book_title.text, "book-title");
if translated_title: book_title.text = translated_title`. -/
def apply_title {π : Type}
    (tf : TState π → String → String → Option String × TState π)
    (root1 : Elem) (st : TState π) (pbt : List Nat) (btText : String) :
    Elem × TState π :=
  match (tf st btText "book-title").1 with
  | some tr =>
    if tr = "" then (root1, (tf st btText "book-title").2)
    else (modifyAt root1 pbt (setText tr), (tf st btText "book-title").2)
  | none => (root1, (tf st btText "book-title").2)

/-- `AdvancedLLMFB2Translator.update_document_metadata`, parameterized
by the translate function so the cached and uncached capabilities can
share it: after the pure location work of `metadata_plan`, translate
`book-title`'s text with context `"book-title"` (note: neither
stripped nor length-checked) and overwrite it when the result is
truthy. -/
def update_document_metadata {π : Type}
    (tf : TState π → String → String → Option String × TState π)
    (root : Elem) (st : TState π) : Elem × TState π :=
  match metadata_task root with
  | none => (metadata_root1 root, st)
  | some pt => apply_title tf (metadata_root1 root) st pt.1 pt.2

theorem update_metadata_no_task {π : Type}
    (tf : TState π → String → String → Option String × TState π)
    (root : Elem) (st : TState π) (h : metadata_task root = none) :
    update_document_metadata tf root st = (metadata_root1 root, st) := by
  unfold update_document_metadata
  rw [h]

theorem update_metadata_task {π : Type}
    (tf : TState π → String → String → Option String × TState π)
    (root : Elem) (st : TState π) (pbt : List Nat) (btText : String)
    (h : metadata_task root = some (pbt, btText)) :
    update_document_metadata tf root st
      = apply_title tf (metadata_root1 root) st pbt btText := by
  unfold update_document_metadata
  rw [h]

theorem apply_title_fail {π : Type}
    (tf : TState π → String → String → Option String × TState π)
    (root1 : Elem) (st : TState π) (pbt : List Nat) (btText : String)
    (hr : (tf st btText "book-title").1 = none) :
    apply_title tf root1 st pbt btText = (root1, (tf st btText "book-title").2) := by
  unfold apply_title
  rw [hr]

theorem apply_title_some {π : Type}
    (tf : TState π → String → String → Option String × TState π)
    (root1 : Elem) (st : TState π) (pbt : List Nat) (btText tr : String)
    (hr : (tf st btText "book-title").1 = some tr) :
    apply_title tf root1 st pbt btText
      = (if tr = "" then root1 else modifyAt root1 pbt (setText tr),
         (tf st btText "book-title").2) := by
  unfold apply_title
  rw [hr]
  split_ifs with h <;> simp [h]

/-- The whole translation operation of `process_fb2_structure` between
parse and write: metadata update, then the walk from the root with the
empty starting context.  Returns the final tree, the submitted
`(text, context)` pairs of the walk, and the final translator state. -/
def runTranslate {π : Type} (P : Provider π) (root : Elem) (st : TState π) :
    Elem × List (String × String) × TState π :=
  let m := update_document_metadata (translate_text P) root st
  process_element_translations (llmCap P) m.1 "" m.2

/-- The same operation against the cache-free capability. -/
def runTranslateNoCache {π : Type} (P : Provider π) (root : Elem) (st : TState π) :
    Elem × List (String × String) × TState π :=
  let m := update_document_metadata (translate_text_nocache P) root st
  process_element_translations (llmCapNoCache P) m.1 "" m.2

/-- `LLMTranslator.cyrl_to_latn`, verbatim (including the source's
`'ш': 'ш'` entry). -/
def cyrl_to_latn : List (Char × String) :=
  [('А', "A"), ('Б', "B"), ('В', "V"), ('Г', "G"), ('Д', "D"), ('Ђ', "Đ"),
   ('Е', "E"), ('Ж', "Ž"), ('З', "Z"), ('И', "I"), ('Ј', "J"), ('К', "K"),
   ('Л', "L"), ('Љ', "Lj"), ('М', "M"), ('Н', "N"), ('Њ', "Nj"), ('О', "O"),
   ('П', "P"), ('Р', "R"), ('С', "S"), ('Т', "T"), ('Ћ', "Ć"), ('У', "U"),
   ('Ф', "F"), ('Х', "H"), ('Ц', "C"), ('Ч', "Č"), ('Џ', "Dž"), ('Ш', "Š"),
   ('а', "a"), ('б', "b"), ('в', "v"), ('г', "g"), ('д', "d"), ('ђ', "đ"),
   ('е', "e"), ('ж', "ž"), ('з', "z"), ('и', "i"), ('ј', "j"), ('к', "k"),
   ('л', "l"), ('љ', "lj"), ('м', "m"), ('н', "n"), ('њ', "nj"), ('о', "o"),
   ('п', "p"), ('р', "r"), ('с', "s"), ('т', "t"), ('ћ', "ć"), ('у', "u"),
   ('ф', "f"), ('х', "h"), ('ц', "c"), ('ч', "č"), ('џ', "dž"), ('ш', "ш")]

/-- `LLMTranslator.convert_to_latin`. -/
def convert_to_latin (text : String) : String :=
  text.data.foldl
    (fun acc c =>
      acc ++ (((cyrl_to_latn.find? (fun kv => decide (kv.1 = c))).map
        (fun kv => kv.2)).getD (String.singleton c)))
    ""

mutual
/-- `AdvancedLLMFB2Translator.convert_tree_to_latin`. -/
def convert_tree_to_latin : Elem → Elem
  | .mk tag attrs txt cs tl =>
    .mk tag attrs (txt.map convert_to_latin) (convertTreeL cs) (tl.map convert_to_latin)

def convertTreeL : List Elem → List Elem
  | [] => []
  | c :: cs => convert_tree_to_latin c :: convertTreeL cs
end

/-- One serialize-and-write attempt of `write_enhanced_xml`, as the
source performs it.  `ok s`: the complete serialization `s` was
written.  `failBefore`: the attempt raised before the output file was
opened (e.g. `ET.tostring` or `minidom.parseString` failing), so the
file is untouched.  `failAfter w`: the attempt raised after
`open(output_path, 'w')` had already truncated the file, leaving the
prefix `w` that was written before the error (possibly empty). -/
inductive WriteOutcome where
  | ok (s : String)
  | failBefore
  | failAfter (written : String)
deriving Repr, DecidableEq

/-- The content a successful attempt wrote, if it succeeded. -/
def WriteOutcome.content? : WriteOutcome → Option String
  | .ok s => some s
  | .failBefore => none
  | .failAfter _ => none

/-- Outcome of `write_enhanced_xml`: whether it returned normally
(`ok = false` models the re-raised `e2`) and the output file content
afterwards. -/
structure WriteResult where
  ok : Bool
  file : Option String
deriving Repr, DecidableEq

/-- `AdvancedLLMFB2Translator.write_enhanced_xml`: optional Latin
conversion, then the pretty (minidom) serialize-and-write; on its
failure the plain `tree.write` fallback; if that fails too the error
propagates (`raise e2`).  `prettyW` and `fallbackW` are the two
fallible write attempts, `file0` the file content before.  Because
each attempt opens the output with `'w'` (truncating it) before
writing, a failure after opening replaces the file with whatever
prefix was written; only a failure before opening leaves the previous
content. -/
def write_enhanced_xml (useLatin : Bool) (prettyW fallbackW : Elem → WriteOutcome)
    (tree : Elem) (file0 : Option String) : WriteResult :=
  match prettyW (if useLatin then convert_tree_to_latin tree else tree) with
  | .ok s => ⟨true, some s⟩
  | .failBefore =>
    match fallbackW (if useLatin then convert_tree_to_latin tree else tree) with
    | .ok s => ⟨true, some s⟩
    | .failBefore => ⟨false, file0⟩
    | .failAfter w => ⟨false, some w⟩
  | .failAfter w1 =>
    match fallbackW (if useLatin then convert_tree_to_latin tree else tree) with
    | .ok s => ⟨true, some s⟩
    | .failBefore => ⟨false, some w1⟩
    | .failAfter w => ⟨false, some w⟩

/-- The methods defined on `LLMTranslator` (its provider subclasses
only add `__init__` and `translate_text` overrides).  No class defines
`print_translation_stats`. -/
def definedTranslatorMethods : List String :=
  ["__init__", "translate_text", "create_translation_prompt",
   "enhance_translation", "convert_to_latin"]

/-- `AdvancedLLMFB2Translator.process_fb2_structure`: parse (`none`
models a parse exception), metadata update, walk, write, then the call
`self.translator.print_translation_stats()`; an exception anywhere in
the `try` block is caught by the blanket handler, which returns
`False`; only falling through every step returns `True`. -/
def process_fb2_structure {π : Type} (P : Provider π) (parsed : Option Elem)
    (useLatin : Bool) (prettyW fallbackW : Elem → WriteOutcome)
    (st : TState π) : Bool :=
  match parsed with
  | none => false
  | some root =>
    let r := runTranslate P root st
    let w := write_enhanced_xml useLatin prettyW fallbackW r.1 none
    if w.ok then
      if "print_translation_stats" ∈ definedTranslatorMethods then true else false
    else false

/-! ### Relating located contexts to joined ancestor tag paths. -/

theorem locate_subAt (e : Elem) (ctx0 : String) (p : List Nat) (n : Elem) (c : String)
    (h : locate e ctx0 p = some (n, c)) : subAt e p = some n := by
  induction p generalizing e ctx0 with
  | nil =>
    simp only [locate, Option.some.injEq, Prod.mk.injEq] at h
    rw [subAt, h.1]
  | cons i p ih =>
    simp only [locate] at h
    cases hch : e.children[i]? with
    | none =>
      rw [hch] at h
      exact absurd h (by simp)
    | some ch =>
      rw [hch] at h
      simp only [subAt, hch]
      exact ih ch (childCtx ctx0 ch.tag) h

theorem locate_ctx (e : Elem) (ctx0 : String) (p : List Nat) (n : Elem) (c : String)
    (h : locate e ctx0 p = some (n, c)) : c = (tagsBelow e p).foldl childCtx ctx0 := by
  induction p generalizing e ctx0 with
  | nil =>
    simp only [locate, Option.some.injEq, Prod.mk.injEq] at h
    rw [tagsBelow, List.foldl_nil, h.2]
  | cons i p ih =>
    simp only [locate] at h
    cases hch : e.children[i]? with
    | none =>
      rw [hch] at h
      exact absurd h (by simp)
    | some ch =>
      rw [hch] at h
      cases e with
      | mk tag attrs txt cs tl =>
        simp only [Elem.children] at hch
        simp only [tagsBelow, Elem.children, hch, List.foldl_cons]
        exact ih ch (childCtx ctx0 ch.tag) h

/-- Tag names joined by the `"/"` separator, no separator before the
first. -/
def joinPath : List String → String
  | [] => ""
  | [t] => t
  | t :: ts => t ++ "/" ++ joinPath ts

theorem joinPath_foldl (ts : List String) (acc : String) (hacc : acc ≠ "") :
    ts.foldl childCtx acc = joinPath (acc :: ts) := by
  induction ts generalizing acc with
  | nil => simp [joinPath]
  | cons x xs ih =>
    simp only [List.foldl_cons]
    rw [childCtx, if_neg hacc]
    have hne : acc ++ "/" ++ x ≠ "" := by
      intro hcontra
      have hlen := congrArg String.length hcontra
      simp only [String.length_append] at hlen
      rw [show ("/" : String).length = 1 from rfl,
        show ("" : String).length = 0 from rfl] at hlen
      omega
    rw [ih (acc ++ "/" ++ x) hne]
    cases xs with
    | nil => simp [joinPath]
    | cons y ys =>
      show (acc ++ "/" ++ x) ++ "/" ++ joinPath (y :: ys)
          = acc ++ "/" ++ (x ++ "/" ++ joinPath (y :: ys))
      simp [String.append_assoc]

/-- Starting from the empty context, the walk's accumulated context is
exactly the tag names joined by `"/"` (for nonempty tag names). -/
theorem foldl_childCtx_joinPath (tags : List String) (htags : ∀ t ∈ tags, t ≠ "") :
    tags.foldl childCtx "" = joinPath tags := by
  cases tags with
  | nil => rfl
  | cons t ts =>
    simp only [List.foldl_cons]
    rw [childCtx, if_pos rfl]
    exact joinPath_foldl ts t (htags t (by simp))

/-- Inversion for a singleton `slotUnits` result: the slot holds a
qualifying text, the unit's text is its stripped value and the unit's
context is the slot's context. -/
theorem slotUnits_inv {slot : Option String} {ctx : String} {a b : String}
    (h : slotUnits slot ctx = [(a, b)]) :
    b = ctx ∧ ∃ t, slot = some t ∧ a = pyStrip t ∧ (pyStrip t).length > 2 := by
  cases slot with
  | none => exact absurd h (by simp [slotUnits])
  | some t =>
    simp only [slotUnits] at h
    split_ifs at h with h1 h2
    rw [List.cons.injEq] at h
    obtain ⟨hp, -⟩ := h
    rw [Prod.mk.injEq] at hp
    exact ⟨hp.2.symm, t, rfl, hp.1.symm, h2⟩

/-! ### Cache transparency against a deterministic provider. -/

/-- A deterministic, stateless provider. -/
def pureProvider (f : String → String → Option String) : Provider Unit :=
  ⟨fun u t c => (f t c, u)⟩

/-- Every cache entry records exactly what the deterministic provider
pipeline (strip, enhance) produces for its key. -/
def cacheConsistent (f : String → String → Option String)
    (cache : List ((String × String) × String)) : Prop :=
  ∀ key v, lookupCache cache key = some v →
    ∃ r, f key.1 key.2 = some r ∧ v = enhance_translation key.1 (pyStrip r)

theorem lookupCache_cons (kv : (String × String) × String)
    (cache : List ((String × String) × String)) (key : String × String) :
    lookupCache (kv :: cache) key
      = if kv.1 = key then some kv.2 else lookupCache cache key := by
  by_cases h : kv.1 = key
  · simp [lookupCache, List.find?_cons_of_pos, h]
  · simp [lookupCache, List.find?_cons_of_neg, h]

theorem pureProvider_call (f : String → String → Option String) (u : Unit)
    (t c : String) : (pureProvider f).call u t c = (f t c, u) := rfl

theorem translate_text_blank {π : Type} (P : Provider π) (st : TState π) (t c : String)
    (hb : pyStrip t = "") : translate_text P st t c = (some t, st) := by
  unfold translate_text
  rw [if_pos hb]

theorem translate_text_hit {π : Type} (P : Provider π) (st : TState π) (t c v : String)
    (hb : ¬ pyStrip t = "") (hv : lookupCache st.cache (t, c) = some v) :
    translate_text P st t c =
      (some v, { st with stats := { st.stats with cached := st.stats.cached + 1 } }) := by
  unfold translate_text
  rw [if_neg hb, hv]

theorem translate_text_fail {π : Type} (P : Provider π) (st : TState π) (t c : String)
    (p' : π) (hb : ¬ pyStrip t = "") (hv : lookupCache st.cache (t, c) = none)
    (hp : P.call st.prov t c = (none, p')) :
    translate_text P st t c =
      (none, { st with stats := { st.stats with errors := st.stats.errors + 1 },
                       prov := p' }) := by
  unfold translate_text
  rw [if_neg hb, hv, hp]

theorem translate_text_resp {π : Type} (P : Provider π) (st : TState π)
    (t c resp : String) (p' : π) (hb : ¬ pyStrip t = "")
    (hv : lookupCache st.cache (t, c) = none)
    (hp : P.call st.prov t c = (some resp, p')) :
    translate_text P st t c =
      (some (enhance_translation t (pyStrip resp)),
       { st with cache := ((t, c), enhance_translation t (pyStrip resp)) :: st.cache,
                 stats := { st.stats with translated := st.stats.translated + 1 },
                 prov := p' }) := by
  unfold translate_text
  rw [if_neg hb, hv, hp]

theorem translate_text_nocache_blank {π : Type} (P : Provider π) (st : TState π)
    (t c : String) (hb : pyStrip t = "") :
    translate_text_nocache P st t c = (some t, st) := by
  unfold translate_text_nocache
  rw [if_pos hb]

theorem translate_text_nocache_fail {π : Type} (P : Provider π) (st : TState π)
    (t c : String) (p' : π) (hb : ¬ pyStrip t = "")
    (hp : P.call st.prov t c = (none, p')) :
    translate_text_nocache P st t c =
      (none, { st with stats := { st.stats with errors := st.stats.errors + 1 },
                       prov := p' }) := by
  unfold translate_text_nocache
  rw [if_neg hb, hp]

theorem translate_text_nocache_resp {π : Type} (P : Provider π) (st : TState π)
    (t c resp : String) (p' : π) (hb : ¬ pyStrip t = "")
    (hp : P.call st.prov t c = (some resp, p')) :
    translate_text_nocache P st t c =
      (some (enhance_translation t (pyStrip resp)),
       { st with stats := { st.stats with translated := st.stats.translated + 1 },
                 prov := p' }) := by
  unfold translate_text_nocache
  rw [if_neg hb, hp]

theorem translate_refines (f : String → String → Option String)
    (st1 st2 : TState Unit) (t c : String) (h : cacheConsistent f st1.cache) :
    (translate_text (pureProvider f) st1 t c).1
      = (translate_text_nocache (pureProvider f) st2 t c).1 ∧
    cacheConsistent f (translate_text (pureProvider f) st1 t c).2.cache := by
  by_cases hb : pyStrip t = ""
  · rw [translate_text_blank _ _ _ _ hb, translate_text_nocache_blank _ _ _ _ hb]
    exact ⟨rfl, h⟩
  · cases hcache : lookupCache st1.cache (t, c) with
    | some v =>
      obtain ⟨r, hr, hv⟩ := h (t, c) v hcache
      rw [translate_text_hit _ _ _ _ _ hb hcache,
        translate_text_nocache_resp (pureProvider f) st2 t c r st2.prov hb
          (by rw [pureProvider_call]; rw [hr])]
      exact ⟨by rw [hv], h⟩
    | none =>
      cases hf : f t c with
      | none =>
        rw [translate_text_fail (pureProvider f) st1 t c st1.prov hb hcache
            (by rw [pureProvider_call, hf]),
          translate_text_nocache_fail (pureProvider f) st2 t c st2.prov hb
            (by rw [pureProvider_call, hf])]
        exact ⟨rfl, h⟩
      | some r =>
        rw [translate_text_resp (pureProvider f) st1 t c r st1.prov hb hcache
            (by rw [pureProvider_call, hf]),
          translate_text_nocache_resp (pureProvider f) st2 t c r st2.prov hb
            (by rw [pureProvider_call, hf])]
        refine ⟨rfl, ?_⟩
        intro key v hkey
        rw [lookupCache_cons] at hkey
        split_ifs at hkey with hk
        · subst hk
          exact ⟨r, hf, (Option.some.inj hkey).symm⟩
        · exact h key v hkey

theorem stepSlot_no_submit {σ : Type} (cap : Cap σ) (slot : Option String)
    (ctx : String) (s : σ) (h : ¬ qualifies slot) :
    stepSlot cap slot ctx s = (slot, [], s) := by
  cases slot with
  | none => rfl
  | some t =>
    simp only [stepSlot]
    split_ifs with h1 h2
    · rfl
    · exact absurd ⟨t, rfl, h2⟩ h
    · rfl

theorem stepSlot_submit {σ : Type} (cap : Cap σ) (t : String) (ctx : String) (s : σ)
    (hl : (pyStrip t).length > 2) :
    stepSlot cap (some t) ctx s =
      (match (cap.translate (cap.bumpTotal s) (pyStrip t) ctx).1 with
       | some tr => if tr = "" then some t else some tr
       | none => some t,
       [(pyStrip t, ctx)],
       (cap.translate (cap.bumpTotal s) (pyStrip t) ctx).2) := by
  have hne : ¬ pyStrip t = "" := by
    intro hcontra
    rw [hcontra] at hl
    simp at hl
  simp only [stepSlot]
  rw [if_neg hne, if_pos hl]

theorem llmCap_translate_eq (f : String → String → Option String) (st : TState Unit)
    (t c : String) :
    (llmCap (pureProvider f)).translate st t c = translate_text (pureProvider f) st t c :=
  rfl

theorem llmCapNoCache_translate_eq (f : String → String → Option String)
    (st : TState Unit) (t c : String) :
    (llmCapNoCache (pureProvider f)).translate st t c
      = translate_text_nocache (pureProvider f) st t c :=
  rfl

theorem stepSlot_refines (f : String → String → Option String) (slot : Option String)
    (ctx : String) (st1 st2 : TState Unit) (h : cacheConsistent f st1.cache) :
    (stepSlot (llmCap (pureProvider f)) slot ctx st1).1
      = (stepSlot (llmCapNoCache (pureProvider f)) slot ctx st2).1 ∧
    cacheConsistent f (stepSlot (llmCap (pureProvider f)) slot ctx st1).2.2.cache := by
  by_cases hq : qualifies slot
  · obtain ⟨t, rfl, hl⟩ := hq
    rw [stepSlot_submit _ _ _ _ hl, stepSlot_submit _ _ _ _ hl]
    have hmain := translate_refines f ((llmCap (pureProvider f)).bumpTotal st1)
      ((llmCapNoCache (pureProvider f)).bumpTotal st2) (pyStrip t) ctx h
    rw [llmCap_translate_eq, llmCapNoCache_translate_eq, hmain.1]
    exact ⟨rfl, hmain.2⟩
  · rw [stepSlot_no_submit _ _ _ _ hq, stepSlot_no_submit _ _ _ _ hq]
    exact ⟨rfl, h⟩

mutual
theorem walk_refines (f : String → String → Option String) (e : Elem) (ctx : String)
    (st1 st2 : TState Unit) (h : cacheConsistent f st1.cache) :
    (process_element_translations (llmCap (pureProvider f)) e ctx st1).1
      = (process_element_translations (llmCapNoCache (pureProvider f)) e ctx st2).1 ∧
    cacheConsistent f
      (process_element_translations (llmCap (pureProvider f)) e ctx st1).2.2.cache := by
  cases e with
  | mk tag attrs txt cs tl =>
    simp only [process_element_translations]
    obtain ⟨hb, hbc⟩ := stepSlot_refines f txt ctx st1 st2 h
    obtain ⟨hm, hmc⟩ := walkL_refines f cs ctx
      (stepSlot (llmCap (pureProvider f)) txt ctx st1).2.2
      (stepSlot (llmCapNoCache (pureProvider f)) txt ctx st2).2.2 hbc
    obtain ⟨ht, htc⟩ := stepSlot_refines f tl (ctx ++ "/tail")
      (processChildren (llmCap (pureProvider f)) cs ctx
        (stepSlot (llmCap (pureProvider f)) txt ctx st1).2.2).2.2
      (processChildren (llmCapNoCache (pureProvider f)) cs ctx
        (stepSlot (llmCapNoCache (pureProvider f)) txt ctx st2).2.2).2.2 hmc
    exact ⟨by rw [hb, hm, ht], htc⟩

theorem walkL_refines (f : String → String → Option String) (cs : List Elem)
    (ctx : String) (st1 st2 : TState Unit) (h : cacheConsistent f st1.cache) :
    (processChildren (llmCap (pureProvider f)) cs ctx st1).1
      = (processChildren (llmCapNoCache (pureProvider f)) cs ctx st2).1 ∧
    cacheConsistent f
      (processChildren (llmCap (pureProvider f)) cs ctx st1).2.2.cache := by
  cases cs with
  | nil => exact ⟨rfl, h⟩
  | cons c cs =>
    simp only [processChildren]
    obtain ⟨hc, hcc⟩ := walk_refines f c (childCtx ctx c.tag) st1 st2 h
    obtain ⟨hr, hrc⟩ := walkL_refines f cs ctx
      (process_element_translations (llmCap (pureProvider f)) c (childCtx ctx c.tag) st1).2.2
      (process_element_translations (llmCapNoCache (pureProvider f)) c
        (childCtx ctx c.tag) st2).2.2 hcc
    exact ⟨by rw [hc, hr], hrc⟩
end

theorem metadata_refines (f : String → String → Option String) (root : Elem)
    (st1 st2 : TState Unit) (h : cacheConsistent f st1.cache) :
    (update_document_metadata (translate_text (pureProvider f)) root st1).1
      = (update_document_metadata (translate_text_nocache (pureProvider f)) root st2).1 ∧
    cacheConsistent f
      (update_document_metadata (translate_text (pureProvider f)) root st1).2.cache := by
  cases hplan : metadata_task root with
  | none =>
    rw [update_metadata_no_task _ _ _ hplan, update_metadata_no_task _ _ _ hplan]
    exact ⟨rfl, h⟩
  | some pt =>
    cases pt with
    | mk pbt btText =>
      rw [update_metadata_task _ _ _ _ _ hplan, update_metadata_task _ _ _ _ _ hplan]
      have hmain := translate_refines f st1 st2 btText "book-title" h
      cases hr1 : (translate_text (pureProvider f) st1 btText "book-title").1 with
      | none =>
        rw [hr1] at hmain
        rw [apply_title_fail _ _ _ _ _ hr1, apply_title_fail _ _ _ _ _ hmain.1.symm]
        exact ⟨rfl, hmain.2⟩
      | some tr =>
        rw [hr1] at hmain
        rw [apply_title_some _ _ _ _ _ _ hr1, apply_title_some _ _ _ _ _ _ hmain.1.symm]
        exact ⟨rfl, hmain.2⟩

/-! ### Shape preservation of the metadata pass; the `total` counter. -/

theorem shape_setText (v : String) (e : Elem) : shapeOf (setText v e) = shapeOf e := by
  cases e with
  | mk tag attrs txt cs tl => rfl

theorem shape_modifyAt_setText (e : Elem) (p : List Nat) (v : String) :
    shapeOf (modifyAt e p (setText v)) = shapeOf e :=
  shape_modifyAt e p (setText v) (fun x => shape_setText v x)

theorem shape_metadata_root1 (root : Elem) :
    shapeOf (metadata_root1 root) = shapeOf root := by
  unfold metadata_root1
  repeat' split
  all_goals simp_all [shape_modifyAt_setText]

theorem shape_update_metadata {π : Type}
    (tf : TState π → String → String → Option String × TState π)
    (root : Elem) (st : TState π) :
    shapeOf (update_document_metadata tf root st).1 = shapeOf root := by
  unfold update_document_metadata apply_title
  repeat' split
  all_goals simp_all [shape_modifyAt_setText, shape_metadata_root1]

theorem translate_text_total {π : Type} (P : Provider π) (st : TState π) (t c : String) :
    (translate_text P st t c).2.stats.total = st.stats.total := by
  by_cases hb : pyStrip t = ""
  · rw [translate_text_blank _ _ _ _ hb]
  · cases hv : lookupCache st.cache (t, c) with
    | some v => rw [translate_text_hit _ _ _ _ _ hb hv]
    | none =>
      cases hp : P.call st.prov t c with
      | mk r p' =>
        cases r with
        | none => rw [translate_text_fail _ _ _ _ _ hb hv hp]
        | some resp => rw [translate_text_resp _ _ _ _ _ _ hb hv hp]

theorem stepSlot_total {π : Type} (P : Provider π) (slot : Option String) (ctx : String)
    (st : TState π) :
    (stepSlot (llmCap P) slot ctx st).2.2.stats.total
      = st.stats.total + (stepSlot (llmCap P) slot ctx st).2.1.length := by
  by_cases hq : qualifies slot
  · obtain ⟨t, rfl, hl⟩ := hq
    rw [stepSlot_submit _ _ _ _ hl]
    show (translate_text P ((llmCap P).bumpTotal st) (pyStrip t) ctx).2.stats.total
        = st.stats.total + 1
    rw [translate_text_total]
    rfl
  · rw [stepSlot_no_submit _ _ _ _ hq]
    show st.stats.total = st.stats.total + 0
    omega

mutual
theorem walk_total {π : Type} (P : Provider π) (e : Elem) (ctx : String)
    (st : TState π) :
    (process_element_translations (llmCap P) e ctx st).2.2.stats.total
      = st.stats.total + (process_element_translations (llmCap P) e ctx st).2.1.length := by
  cases e with
  | mk tag attrs txt cs tl =>
    simp only [process_element_translations, List.length_append]
    rw [stepSlot_total P tl, walkL_total P cs ctx, stepSlot_total P txt]
    omega

theorem walkL_total {π : Type} (P : Provider π) (cs : List Elem) (ctx : String)
    (st : TState π) :
    (processChildren (llmCap P) cs ctx st).2.2.stats.total
      = st.stats.total + (processChildren (llmCap P) cs ctx st).2.1.length := by
  cases cs with
  | nil => simp [processChildren]
  | cons c cs =>
    simp only [processChildren, List.length_append]
    rw [walkL_total P cs ctx, walk_total P c]
    omega
end

/-! ### Concrete documents, capabilities and states for the claims. -/

/-- A fresh translator state: empty cache, zeroed statistics. -/
def st0 : TState Unit := ⟨[], ⟨0, 0, 0, 0⟩, ()⟩

/-- A provider that always gives the same answer. -/
def constProvider (r : Option String) : Provider Unit := ⟨fun u _ _ => (r, u)⟩

/-- A capability whose every translation attempt fails. -/
def failCap : Cap Unit := ⟨fun u => u, fun u _ _ => (none, u)⟩

/-- A capability that always answers `r`. -/
def okCap (r : String) : Cap Unit := ⟨fun u => u, fun u _ _ => (some r, u)⟩

/-- A provider that plays back a fixed script of responses. -/
def scriptProvider : Provider (List (Option String)) :=
  ⟨fun l _ _ =>
    match l with
    | [] => (none, [])
    | r :: rest => (r, rest)⟩

/-- The spec's two-level scenario document
`<root><p>Привет мир</p>hello</root>`. -/
def exDocTwoLevel : Elem :=
  .mk "root" [] none [.mk "p" [] (some "Привет мир") [] (some "hello")] none

/-- An FB2 document whose `lang` metadata field holds `"ru"`. -/
def exDocMeta : Elem :=
  .mk "FictionBook" [] none
    [.mk descriptionTag [] none
      [.mk titleInfoTag [] none
        [.mk langTag [] (some "ru") [] none] none] none] none

/-- An FB2 document with a qualifying `book-title`. -/
def exDocTitle : Elem :=
  .mk "FictionBook" [] none
    [.mk descriptionTag [] none
      [.mk titleInfoTag [] none
        [.mk bookTitleTag [] (some "Сказка") [] none] none] none] none

/-- A root whose body text carries surrounding whitespace. -/
def exDocPad : Elem := .mk "root" [] (some " abcd ") [] none

/-- A root whose body text has stripped length 2. -/
def exDocShort : Elem := .mk "root" [] (some "Hi") [] none

/-- A root whose body text is the failing scenario's "Здраво". -/
def exDocZdravo : Elem := .mk "root" [] (some "Здраво") [] none

/-- A state whose cache already holds `("abc", "c")`. -/
def stHit : TState Unit := ⟨[(("abc", "c"), "v")], ⟨0, 0, 0, 0⟩, ()⟩

/-- The scripted state: first call raises, second answers `"X"`. -/
def st9 : TState (List (Option String)) := ⟨[], ⟨0, 0, 0, 0⟩, [none, some "X"]⟩

/-- A write attempt that always raises before opening the file. -/
def wFailBefore : Elem → WriteOutcome := fun _ => .failBefore

/-- A write attempt that always raises after truncating the file,
having written the prefix `w`. -/
def wFailAfter (w : String) : Elem → WriteOutcome := fun _ => .failAfter w

/-- A write attempt that always writes `s` completely. -/
def wOk (s : String) : Elem → WriteOutcome := fun _ => .ok s

/-! ### Claim theorems. -/

/-- C1 (counterexample): in the two-level document
`<root><p>Привет мир</p>hello</root>`, the walk submits the body of
`p` with context `"p"` and the inner tail with context `"p/tail"` —
not `"root/p"` and `"root/tail"` as the claim states: the walk is
started with the empty context, so the root element's own tag never
enters any context. -/
theorem c1_counterexample :
    (process_element_translations failCap exDocTwoLevel "" ()).2.1
        = [("Привет мир", "p"), ("hello", "p/tail")] ∧
    ("p" : String) ≠ "root/p" ∧ ("p/tail" : String) ≠ "root/tail" :=
  ⟨by decide, by decide, by decide⟩

/-- C1 (amended): every unit the walk submits carries as context the
ancestor tag names joined by `"/"` starting BELOW the root (the run
calls the walk with the empty context, so the root's own tag is
omitted and the root's body context is `""`), with `"/tail"` appended
for a tail unit. -/
theorem c1_context_is_joined_path_below_root (e : Elem)
    (q : List Nat × Bool × String × String) (hq : q ∈ unitsE e "")
    (htags : ∀ t ∈ tagsBelow e q.1, t ≠ "") :
    ∃ n, subAt e q.1 = some n ∧
      q.2.2.2 = slotCtx (joinPath (tagsBelow e q.1)) q.2.1 := by
  obtain ⟨n, c, hloc, hslot⟩ := unitsE_mem e "" q hq
  obtain ⟨hctx, t, hslot2, hta, hlen⟩ := slotUnits_inv hslot
  refine ⟨n, locate_subAt e "" q.1 n c hloc, ?_⟩
  rw [hctx, locate_ctx e "" q.1 n c hloc, foldl_childCtx_joinPath _ htags]

/-- C1 (witness): the amended statement applied to the `p` body unit of
the two-level document. -/
theorem c1_witness :
    (([0], false, "Привет мир", "p") ∈ unitsE exDocTwoLevel "" ∧
      ∀ t ∈ tagsBelow exDocTwoLevel [0], t ≠ "") ∧
    (∃ n, subAt exDocTwoLevel [0] = some n ∧
      ("p" : String) = slotCtx (joinPath (tagsBelow exDocTwoLevel [0])) false) :=
  ⟨⟨by decide, by decide⟩,
   c1_context_is_joined_path_below_root exDocTwoLevel ([0], false, "Привет мир", "p")
     (by decide) (by decide)⟩

/-- C2: the whole translation operation (metadata update plus walk)
preserves the document's shape — the set and order of nodes, every tag
name and the attribute lists (names, values, order) — for every
provider and starting state; only body and tail text can change. -/
theorem c2_structure_invariant {π : Type} (P : Provider π) (root : Elem)
    (st : TState π) :
    shapeOf (runTranslate P root st).1 = shapeOf root := by
  unfold runTranslate
  rw [shape_walk, shape_update_metadata]

/-- C3 (counterexample): the run is not limited to the walk's
qualification rule: `update_document_metadata` rewrites the `lang`
slot, whose stripped length is 2, from `"ru"` to `"sr"`, so a slot
with stripped length ≤ 2 does not keep its stored value across the
run. -/
theorem c3_counterexample :
    (pyStrip "ru").length ≤ 2 ∧
    ((subAt exDocMeta [0, 0, 0]).map Elem.text) = some (some "ru") ∧
    ((subAt (runTranslate (constProvider none) exDocMeta st0).1 [0, 0, 0]).map Elem.text)
        = some (some "sr") ∧
    ((subAt (runTranslate (constProvider none) exDocMeta st0).1 [0, 0, 0]).map Elem.text)
        ≠ ((subAt exDocMeta [0, 0, 0]).map Elem.text) :=
  ⟨by decide, by decide, by decide, by decide⟩

/-- C3 (amended): during the walk itself the claim holds: a located
slot yields exactly one unit when it qualifies (stripped length > 2)
and none otherwise, and a non-qualifying slot's stored value survives
the walk unchanged for every capability.  The prior metadata pass may
additionally rewrite the `lang` and `book-title` slots. -/
theorem c3_qualifying_slots_one_unit {σ : Type} (cap : Cap σ) (s : σ) (e : Elem)
    (ctx0 : String) (p : List Nat) (n : Elem) (c : String) (k : Bool)
    (h : locate e ctx0 p = some (n, c)) :
    countSlot (unitsE e ctx0) p k = (if qualifies (slotOf n k) then 1 else 0) ∧
    (¬ qualifies (slotOf n k) →
      ∃ n', subAt (process_element_translations cap e ctx0 s).1 p = some n' ∧
        slotOf n' k = slotOf n k) := by
  constructor
  · rw [countSlot_unitsE e ctx0 p k n c h, slotUnits_length]
  · intro hq
    obtain ⟨n', s', hsub, hslot⟩ := walk_slot_at cap e ctx0 s p n c k h
    exact ⟨n', hsub, by rw [hslot, stepSlot_not_qual _ _ _ _ hq]⟩

/-- C3 (witness): the amended statement applied to a root whose body
text `"Hi"` has stripped length 2. -/
theorem c3_witness :
    locate exDocShort "" [] = some (exDocShort, "") ∧
    (countSlot (unitsE exDocShort "") [] false
        = (if qualifies (slotOf exDocShort false) then 1 else 0) ∧
      (¬ qualifies (slotOf exDocShort false) →
        ∃ n', subAt (process_element_translations failCap exDocShort "" ()).1 []
            = some n' ∧ slotOf n' false = slotOf exDocShort false)) :=
  ⟨rfl, c3_qualifying_slots_one_unit failCap () exDocShort "" [] exDocShort "" false rfl⟩

/-- C4: a qualifying slot whose every translation attempt fails — the
capability answers `None` (an exception) or the empty string — keeps
exactly its original stored text across the walk; it never becomes
empty or null. -/
theorem c4_failed_slot_unchanged {σ : Type} (cap : Cap σ) (s : σ) (e : Elem)
    (ctx0 : String) (p : List Nat) (n : Elem) (c : String) (k : Bool) (t : String)
    (h : locate e ctx0 p = some (n, c)) (ht : slotOf n k = some t)
    (hlen : (pyStrip t).length > 2)
    (hfail : ∀ s', failedResult (cap.translate s' (pyStrip t) (slotCtx c k)).1) :
    ∃ n', subAt (process_element_translations cap e ctx0 s).1 p = some n' ∧
      slotOf n' k = some t := by
  obtain ⟨n', s', hsub, hslot⟩ := walk_slot_at cap e ctx0 s p n c k h
  refine ⟨n', hsub, ?_⟩
  rw [hslot, ht, stepSlot_qual cap t (slotCtx c k) s' hlen]
  rcases hfail (cap.bumpTotal s') with hf | hf
  · rw [hf]
  · rw [hf]
    simp

/-- C4 (witness): the failing scenario unit `"Здраво"` against an
always-failing capability: the slot still holds `"Здраво"`. -/
theorem c4_witness :
    locate exDocZdravo "" [] = some (exDocZdravo, "") ∧
    slotOf exDocZdravo false = some "Здраво" ∧
    (pyStrip "Здраво").length > 2 ∧
    (∀ s', failedResult (failCap.translate s' (pyStrip "Здраво") (slotCtx "" false)).1) ∧
    ∃ n', subAt (process_element_translations failCap exDocZdravo "" ()).1 [] = some n' ∧
      slotOf n' false = some "Здраво" :=
  ⟨rfl, rfl, by decide, fun _ => Or.inl rfl,
   c4_failed_slot_unchanged failCap () exDocZdravo "" [] exDocZdravo "" false "Здраво"
     rfl rfl (by decide) (fun _ => Or.inl rfl)⟩

/-- C5 (counterexample): the full run's submission sequence is not the
same on every run: when the capability translates the `book-title`
metadata differently (here `"Rat"` versus a failure), the walk then
submits different text for the title node, so two runs over the same
fixed input document submit different `(text, context)` sequences. -/
theorem c5_counterexample :
    ((runTranslate (constProvider (some "Rat")) exDocTitle st0).2.1.map Prod.fst
        = ["Rat"]) ∧
    ((runTranslate (constProvider none) exDocTitle st0).2.1.map Prod.fst
        = ["Сказка"]) ∧
    (runTranslate (constProvider (some "Rat")) exDocTitle st0).2.1
        ≠ (runTranslate (constProvider none) exDocTitle st0).2.1 :=
  ⟨by decide, by decide, by decide⟩

/-- C5 (amended): the walk's own submission sequence is a pure function
of the tree it starts from: it equals the pre-order enumeration
`submittedUnits` (body before children, tail after the whole subtree)
and is identical for any two capabilities in any two states.  Only the
metadata pass before the walk can make full-run sequences differ. -/
theorem c5_walk_order_deterministic {σ σ2 : Type} (cap : Cap σ) (cap2 : Cap σ2)
    (s : σ) (s2 : σ2) (e : Elem) (ctx : String) :
    (process_element_translations cap e ctx s).2.1 = submittedUnits e ctx ∧
    (process_element_translations cap e ctx s).2.1
      = (process_element_translations cap2 e ctx s2).2.1 :=
  ⟨trace_eq cap e ctx s, (trace_eq cap e ctx s).trans (trace_eq cap2 e ctx s2).symm⟩

/-- C6: `process_fb2_structure` calls
`self.translator.print_translation_stats()` after writing, but no
translator class defines that method, so the `AttributeError` lands in
the blanket handler and the function returns `False` — on every input,
including runs that parsed, walked and wrote successfully. -/
theorem c6_process_fb2_structure_always_false {π : Type} (P : Provider π)
    (parsed : Option Elem) (useLatin : Bool)
    (prettyW fallbackW : Elem → WriteOutcome) (st : TState π) :
    "print_translation_stats" ∉ definedTranslatorMethods ∧
    process_fb2_structure P parsed useLatin prettyW fallbackW st = false := by
  refine ⟨by decide, ?_⟩
  cases parsed with
  | none => rfl
  | some root =>
    unfold process_fb2_structure
    simp only [definedTranslatorMethods]
    split_ifs with h1 h2
    · simp at h2
    · rfl
    · rfl

/-- C7 (counterexample): the walker submits the STRIPPED slot text, not
the raw stored text: for a body `" abcd "` the unit's text is
`"abcd"`. -/
theorem c7_counterexample :
    Elem.text exDocPad = some " abcd " ∧
    (process_element_translations failCap exDocPad "" ()).2.1 = [("abcd", "")] ∧
    ("abcd" : String) ≠ " abcd " :=
  ⟨rfl, by decide, by decide⟩

/-- C7 (amended): the text submitted for a slot is the stripped stored
text, and when the capability answers a nonempty result the walker
stores exactly that returned string, with no re-trimming. -/
theorem c7_strip_on_submit_store_verbatim {σ : Type} (cap : Cap σ) (s : σ)
    (e : Elem) (ctx0 : String) :
    (∀ q ∈ unitsE e ctx0, ∃ n t, subAt e q.1 = some n ∧
        slotOf n q.2.1 = some t ∧ q.2.2.1 = pyStrip t) ∧
    (∀ p n c k t tr, locate e ctx0 p = some (n, c) → slotOf n k = some t →
      (pyStrip t).length > 2 → tr ≠ "" →
      (∀ s', (cap.translate s' (pyStrip t) (slotCtx c k)).1 = some tr) →
      ∃ n', subAt (process_element_translations cap e ctx0 s).1 p = some n' ∧
        slotOf n' k = some tr) := by
  constructor
  · intro q hq
    obtain ⟨n, c, hloc, hslot⟩ := unitsE_mem e ctx0 q hq
    obtain ⟨hctx, t, hslot2, hta, hlen⟩ := slotUnits_inv hslot
    exact ⟨n, t, locate_subAt e ctx0 q.1 n c hloc, hslot2, hta⟩
  · intro p n c k t tr hloc ht hlen htr hsucc
    obtain ⟨n', s', hsub, hslot⟩ := walk_slot_at cap e ctx0 s p n c k hloc
    refine ⟨n', hsub, ?_⟩
    rw [hslot, ht, stepSlot_qual cap t (slotCtx c k) s' hlen, hsucc (cap.bumpTotal s')]
    simp [htr]

/-- C7 (witness): for the padded body `" abcd "`, submission uses
`"abcd"`, and a capability answering `"Zdravo"` leaves exactly
`"Zdravo"` in the slot. -/
theorem c7_witness :
    (∀ q ∈ unitsE exDocPad "", ∃ n t, subAt exDocPad q.1 = some n ∧
        slotOf n q.2.1 = some t ∧ q.2.2.1 = pyStrip t) ∧
    (∃ n', subAt (process_element_translations (okCap "Zdravo") exDocPad "" ()).1 []
        = some n' ∧ slotOf n' false = some "Zdravo") :=
  ⟨(c7_strip_on_submit_store_verbatim (okCap "Zdravo") () exDocPad "").1,
   (c7_strip_on_submit_store_verbatim (okCap "Zdravo") () exDocPad "").2 [] exDocPad ""
     false " abcd " "Zdravo" rfl rfl (by decide) (by decide) (fun _ => rfl)⟩

/-- C8 (counterexample): an empty response from the capability does NOT
increment the failure counter: the empty string is stripped, enhanced
to the empty string, counted as `translated` and returned, so `errors`
stays 0 where the claim requires an increment of 1. -/
theorem c8_counterexample :
    (translate_text (constProvider (some "")) st0 "abc" "ctx").1 = some "" ∧
    (translate_text (constProvider (some "")) st0 "abc" "ctx").2.stats.errors = 0 ∧
    (translate_text (constProvider (some "")) st0 "abc" "ctx").2.stats.translated = 1 :=
  ⟨by decide, by decide, by decide⟩

/-- C8 (amended): the statistics record keeps the four counters
`total`, `translated`, `errors`, `cached`: a provider exception
increments `errors` by exactly 1 (everything else untouched), a cache
hit increments `cached` by exactly 1, and the walk increments `total`
once per submitted unit; an empty response is counted as `translated`,
not as a failure. -/
theorem c8_error_counting {π : Type} (P : Provider π) (st : TState π) (t c : String)
    (p' : π) (v : String) (e : Elem) (ctx : String) :
    (¬ pyStrip t = "" → lookupCache st.cache (t, c) = none →
      P.call st.prov t c = (none, p') →
      translate_text P st t c
        = (none, { st with stats := { st.stats with errors := st.stats.errors + 1 },
                           prov := p' })) ∧
    (¬ pyStrip t = "" → lookupCache st.cache (t, c) = some v →
      translate_text P st t c
        = (some v,
           { st with stats := { st.stats with cached := st.stats.cached + 1 } })) ∧
    ((process_element_translations (llmCap P) e ctx st).2.2.stats.total
      = st.stats.total + (process_element_translations (llmCap P) e ctx st).2.1.length) :=
  ⟨fun hb hv hp => translate_text_fail P st t c p' hb hv hp,
   fun hb hv => translate_text_hit P st t c v hb hv,
   walk_total P e ctx st⟩

/-- C8 (witness): a raising provider bumps `errors` to 1; a cache hit
bumps `cached`; the walk of the padded document bumps `total` by its
one submitted unit. -/
theorem c8_witness :
    translate_text (constProvider none) st0 "abc" "c"
      = (none, { st0 with stats := { st0.stats with errors := st0.stats.errors + 1 },
                          prov := () }) ∧
    translate_text (constProvider none) stHit "abc" "c"
      = (some "v",
         { stHit with stats := { stHit.stats with cached := stHit.stats.cached + 1 } }) ∧
    (process_element_translations (llmCap (constProvider none)) exDocPad "" st0).2.2.stats.total
      = st0.stats.total
        + (process_element_translations (llmCap (constProvider none)) exDocPad "" st0).2.1.length :=
  ⟨(c8_error_counting (constProvider none) st0 "abc" "c" () "v" exDocPad "").1
     (by decide) (by decide) rfl,
   (c8_error_counting (constProvider none) stHit "abc" "c" () "v" exDocPad "").2.1
     (by decide) (by decide),
   (c8_error_counting (constProvider none) st0 "abc" "c" () "v" exDocPad "").2.2⟩

/-- C9 (counterexample): repeated submission of the same pair is NOT
always served with one provider invocation returning the first result:
a failed first attempt is not cached, so the second call invokes the
provider again (the script is fully consumed) and returns a different
result. -/
theorem c9_counterexample :
    (translate_text scriptProvider st9 "abc" "c").1 = none ∧
    (translate_text scriptProvider
        (translate_text scriptProvider st9 "abc" "c").2 "abc" "c").1 = some "X" ∧
    (translate_text scriptProvider st9 "abc" "c").1
      ≠ (translate_text scriptProvider
          (translate_text scriptProvider st9 "abc" "c").2 "abc" "c").1 ∧
    (translate_text scriptProvider
        (translate_text scriptProvider st9 "abc" "c").2 "abc" "c").2.prov = [] :=
  ⟨by decide, by decide, by decide, by decide⟩

/-- C9 (amended): against a deterministic provider the cache is
transparent for the produced document: a successful first result is
cached and every later identical pair is served with the same value,
and the whole run (metadata plus walk) yields the same tree with the
cache as without it, from any cache consistent with the provider (in
particular the empty one).  Failures are not cached and are retried. -/
theorem c9_cache_transparent (f : String → String → Option String) (root : Elem)
    (st1 st2 : TState Unit) (h : cacheConsistent f st1.cache) :
    (runTranslate (pureProvider f) root st1).1
      = (runTranslateNoCache (pureProvider f) root st2).1 := by
  have hmeta := metadata_refines f root st1 st2 h
  show (process_element_translations (llmCap (pureProvider f))
      (update_document_metadata (translate_text (pureProvider f)) root st1).1 ""
      (update_document_metadata (translate_text (pureProvider f)) root st1).2).1
    = (process_element_translations (llmCapNoCache (pureProvider f))
      (update_document_metadata (translate_text_nocache (pureProvider f)) root st2).1 ""
      (update_document_metadata (translate_text_nocache (pureProvider f)) root st2).2).1
  rw [show (update_document_metadata (translate_text (pureProvider f)) root st1).1
      = (update_document_metadata (translate_text_nocache (pureProvider f)) root st2).1
      from hmeta.1]
  exact (walk_refines f _ "" _ _ hmeta.2).1

/-- C9 (witness): the transparency statement applied to the two-level
document with an always-succeeding deterministic provider and empty
caches. -/
theorem c9_witness :
    cacheConsistent (fun _ _ => some "Zdravo") st0.cache ∧
    (runTranslate (pureProvider (fun _ _ => some "Zdravo")) exDocTwoLevel st0).1
      = (runTranslateNoCache (pureProvider (fun _ _ => some "Zdravo")) exDocTwoLevel st0).1 := by
  have hc : cacheConsistent (fun _ _ => some "Zdravo") st0.cache := by
    intro key v hkey
    simp [st0, lookupCache] at hkey
  exact ⟨hc, c9_cache_transparent (fun _ _ => some "Zdravo") exDocTwoLevel st0 st0 hc⟩

/-- C10 (counterexample): the run does NOT always either produce a
complete output document or leave no corrupt partial file: both write
attempts open the output with `'w'`, truncating it, before writing,
so when the pretty write fails mid-write and the fallback write then
also fails mid-write, `raise e2` surfaces the error but the output
file — which held a complete document before the run — is left
holding the fallback's partial prefix. -/
theorem c10_counterexample :
    write_enhanced_xml false (wFailAfter "<FictionB") (wFailAfter "<?xml ve")
        exDocTwoLevel (some "<old-complete-document/>")
      = ⟨false, some "<?xml ve"⟩ ∧
    (some "<?xml ve" : Option String) ≠ some "<old-complete-document/>" :=
  ⟨rfl, by decide⟩

/-- C10 (amended): when the pretty serialization fails, the structural
fallback without pretty-printing is attempted, and a successful
fallback leaves its complete output; when the fallback also fails the
error is raised as fatal (the call reports failure).  The file is
guaranteed untouched only when both attempts fail before opening the
output file; an attempt that fails after `open('w')` has truncated
the file can leave a partial prefix behind, so the original claim's
"no corrupt partial file" clause does not hold on that path. -/
theorem c10_fallback_fatal_on_double_failure (useLatin : Bool)
    (prettyW fallbackW : Elem → WriteOutcome) (tree : Elem)
    (file0 : Option String) :
    (∀ s, prettyW (if useLatin then convert_tree_to_latin tree else tree) = .ok s →
      write_enhanced_xml useLatin prettyW fallbackW tree file0 = ⟨true, some s⟩) ∧
    (∀ s, (prettyW (if useLatin then convert_tree_to_latin tree else tree)).content? = none →
      fallbackW (if useLatin then convert_tree_to_latin tree else tree) = .ok s →
      write_enhanced_xml useLatin prettyW fallbackW tree file0 = ⟨true, some s⟩) ∧
    (prettyW (if useLatin then convert_tree_to_latin tree else tree) = .failBefore →
      fallbackW (if useLatin then convert_tree_to_latin tree else tree) = .failBefore →
      write_enhanced_xml useLatin prettyW fallbackW tree file0 = ⟨false, file0⟩) ∧
    ((prettyW (if useLatin then convert_tree_to_latin tree else tree)).content? = none →
      (fallbackW (if useLatin then convert_tree_to_latin tree else tree)).content? = none →
      (write_enhanced_xml useLatin prettyW fallbackW tree file0).ok = false) := by
  refine ⟨?_, ?_, ?_, ?_⟩
  · intro s hp
    unfold write_enhanced_xml
    rw [hp]
  · intro s hp hf
    unfold write_enhanced_xml
    cases hpw : prettyW (if useLatin then convert_tree_to_latin tree else tree) with
    | ok s' => rw [hpw] at hp; exact absurd hp (by simp [WriteOutcome.content?])
    | failBefore => rw [hf]
    | failAfter w1 => rw [hf]
  · intro hp hf
    unfold write_enhanced_xml
    rw [hp, hf]
  · intro hp hf
    unfold write_enhanced_xml
    cases hpw : prettyW (if useLatin then convert_tree_to_latin tree else tree) with
    | ok s' => rw [hpw] at hp; exact absurd hp (by simp [WriteOutcome.content?])
    | failBefore =>
      cases hfw : fallbackW (if useLatin then convert_tree_to_latin tree else tree) with
      | ok s' => rw [hfw] at hf; exact absurd hf (by simp [WriteOutcome.content?])
      | failBefore => rfl
      | failAfter w => rfl
    | failAfter w1 =>
      cases hfw : fallbackW (if useLatin then convert_tree_to_latin tree else tree) with
      | ok s' => rw [hfw] at hf; exact absurd hf (by simp [WriteOutcome.content?])
      | failBefore => rfl
      | failAfter w => rfl

/-- C10 (witness): a pretty failure before opening followed by a
successful fallback writes the fallback's output; two failures before
opening report failure with the file untouched; and a pretty
mid-write failure with a failing fallback reports failure. -/
theorem c10_witness :
    write_enhanced_xml false wFailBefore (wOk "out") exDocTwoLevel none
      = ⟨true, some "out"⟩ ∧
    write_enhanced_xml false wFailBefore wFailBefore exDocTwoLevel none
      = ⟨false, none⟩ ∧
    (write_enhanced_xml false (wFailAfter "<Fi") wFailBefore exDocTwoLevel none).ok
      = false :=
  ⟨(c10_fallback_fatal_on_double_failure false wFailBefore (wOk "out")
      exDocTwoLevel none).2.1 "out" rfl rfl,
   (c10_fallback_fatal_on_double_failure false wFailBefore wFailBefore
      exDocTwoLevel none).2.2.1 rfl rfl,
   (c10_fallback_fatal_on_double_failure false (wFailAfter "<Fi") wFailBefore
      exDocTwoLevel none).2.2.2 rfl rfl⟩

end Translator
